import Mathlib

/-!
Verification of the graph-quantization engine (`tinynn/graph/quantization/quantizer.py`).

The development shallowly embeds the parts of the file that the checked
properties are about:

* the quantization propagation of `QATQuantizer.prepare_qat_prep`
  (queue-based breadth-first flag propagation),
* the backward fusion matcher `QATQuantizer.is_fusable`,
* the fusion-rule trie compiler `load_processed_qat_rules`,
* the configuration parsing and construction-time assertion checks of
  `QATQuantizer.__init__` / `parse_config` and `DynamicQuantizer.parse_config`,
* the algebraic `div`/`sub` rewrite passes of
  `QATQuantizer.rewrite_quantize_graph` over a small numeric dataflow IR,
  together with the `graph.quantized` idempotence guard of that function.

Tensors are modelled as lists of rationals (the rewrites at stake are exact
even in IEEE arithmetic: negation, sign flip and reciprocal-multiplication),
Python dicts as ordered association lists, and the unbounded `while` loops as
fuel-indexed recursions returning `Option` (`none` = fuel exhausted; every
concrete run below is exhibited with sufficient fuel).
-/

namespace TinyNN

/-! ## Quantization propagation (`QATQuantizer.prepare_qat_prep`)

The Python code seeds a FIFO queue with the graph's input nodes (flags taken
from `is_input_quantized`, or `False`) and the constant/creation nodes
(flag = tensor dtype is not float32), then runs `_qat_analysis` on each
dequeued pair, OR-ing every dequeued flag into `graph.quantized`. -/

/-- The module kind of a trace node, as far as `_qat_analysis` distinguishes it:
`torch_q.QuantStub`, `torch_q.DeQuantStub`, or anything else. -/
inductive ModKind where
  | quantStub
  | deQuantStub
  | other
deriving DecidableEq, Repr

/-- A node of the traced computation graph, restricted to the fields that
`prepare_qat_prep` reads: its unique name, its module kind, the names of its
successors (`next_nodes`), and whether `next_tensors[0].dtype == torch.float32`. -/
structure TraceNode where
  unique_name : String
  kind : ModKind
  next_nodes : List String
  dtype_float32 : Bool
deriving DecidableEq, Repr

/-- The traced graph: all nodes, the designated input nodes, the constant nodes
(`graph.constant_nodes` together with the extra creation-function nodes, which
the Python code seeds identically), and the names of the output nodes. -/
structure TraceGraph where
  nodes : List TraceNode
  input_nodes : List TraceNode
  constant_nodes : List TraceNode
  output_names : List String
deriving DecidableEq, Repr

/-- Resolve a node name in the graph (Python holds object references; the
embedding links by unique name). -/
def lookupNode (g : TraceGraph) (name : String) : Option TraceNode :=
  g.nodes.find? (fun n => n.unique_name == name)

/-- The mutable state of the propagation: the `node.quantized` assignments made
so far (newest first), the visited set, the FIFO work queue, and
`graph.quantized`.  `processed` is an observation log of every flag dequeued so
far, used to state the OR characterisation of `graph.quantized`. -/
structure PropState where
  flags : List (String × Bool)
  visited : List String
  queue : List (TraceNode × Bool)
  gq : Bool
  processed : List Bool
deriving DecidableEq, Repr

/-- The node-level flag written by `_qat_analysis`: a `QuantStub` or
`DeQuantStub` is forced to `True`; any other node takes the incoming flag. -/
def nodeFlagOf : ModKind → Bool → Bool
  | .quantStub, _ => true
  | .deQuantStub, _ => true
  | .other, q => q

/-- The flag propagated onward by `_qat_analysis`: a `QuantStub` propagates
`True`, a `DeQuantStub` propagates `False`, anything else passes the incoming
flag through. -/
def propFlagOf : ModKind → Bool → Bool
  | .quantStub, _ => true
  | .deQuantStub, _ => false
  | .other, q => q

/-- The `while not qat_analysis_queue.empty()` loop of `prepare_qat_prep`
together with the body of `_qat_analysis`: dequeue `(node, quantized)`, OR the
flag into `graph.quantized`, skip visited nodes, mark the node visited, stop at
output nodes, otherwise record the node flag and enqueue all successors with
the propagated flag. -/
def qatRun (g : TraceGraph) : Nat → PropState → Option PropState
  | 0, _ => none
  | fuel + 1, st =>
    match st.queue with
    | [] => some st
    | (node, q) :: rest =>
      let gq := st.gq || q
      let processed := st.processed ++ [q]
      if node.unique_name ∈ st.visited then
        qatRun g fuel { st with queue := rest, gq := gq, processed := processed }
      else
        let visited := node.unique_name :: st.visited
        if node.unique_name ∈ g.output_names then
          qatRun g fuel
            { st with queue := rest, visited := visited, gq := gq, processed := processed }
        else
          let succs := node.next_nodes.filterMap (lookupNode g)
          qatRun g fuel
            { flags := (node.unique_name, nodeFlagOf node.kind q) :: st.flags
              visited := visited
              queue := rest ++ succs.map (fun n => (n, propFlagOf node.kind q))
              gq := gq
              processed := processed }

/-- The initial queue contents: input nodes paired with `is_input_quantized`
(or all `False` when it is `None`), followed by the constant/creation nodes
with flag `not n.next_tensors[0].dtype == torch.float32`. -/
def initSeeds (g : TraceGraph) (iq : Option (List Bool)) : List (TraceNode × Bool) :=
  (match iq with
   | some bs => g.input_nodes.zip bs
   | none => g.input_nodes.map (fun n => (n, false))) ++
  g.constant_nodes.map (fun n => (n, !n.dtype_float32))

/-- The unique names of the seeded nodes. -/
def seedNames (g : TraceGraph) (iq : Option (List Bool)) : List String :=
  (initSeeds g iq).map (fun p => p.1.unique_name)

/-- The whole propagation phase of `prepare_qat_prep`: run the analysis queue
to exhaustion from the seeds, starting from the given `graph.quantized` value. -/
def prepare_qat_analysis (g : TraceGraph) (iq : Option (List Bool)) (gq0 : Bool)
    (fuel : Nat) : Option PropState :=
  qatRun g fuel { flags := [], visited := [], queue := initSeeds g iq, gq := gq0,
                  processed := [] }

/-- Well-formedness of the traced graph handed over by the tracer: every seeded
node is resolvable to itself by name. -/
def WFGraph (g : TraceGraph) : Prop :=
  ∀ n ∈ g.input_nodes ++ g.constant_nodes, lookupNode g n.unique_name = some n

instance (g : TraceGraph) : Decidable (WFGraph g) := by
  unfold WFGraph; infer_instance

/-- Reachability along the propagation: a seed is reachable, and any resolvable
successor of a reachable non-output node is reachable. -/
inductive ReachableFrom (g : TraceGraph) (seeds : List String) : String → Prop
  | seed {n} : n ∈ seeds → ReachableFrom g seeds n
  | step {m n node} : ReachableFrom g seeds m → m ∉ g.output_names →
      lookupNode g m = some node → n ∈ node.next_nodes →
      (lookupNode g n).isSome → ReachableFrom g seeds n

end TinyNN

namespace TinyNN

/-- A resolved node carries the name it was resolved by. -/
theorem lookupNode_name {g : TraceGraph} {m : String} {x : TraceNode}
    (h : lookupNode g m = some x) : x.unique_name = m := by
  unfold lookupNode at h
  simpa using List.find?_some h

/-- Composing two `graph.quantized` OR-updates is a single OR-update. -/
theorem map_addGq_comp (a b : Bool) (x : Option PropState) :
    Option.map (fun r => { r with gq := a || r.gq })
      (Option.map (fun r => { r with gq := b || r.gq }) x) =
      Option.map (fun r => { r with gq := (a || b) || r.gq }) x := by
  cases x <;> simp [Bool.or_assoc]

/-- The run ignores the incoming `graph.quantized` value except for OR-ing it
into the result: the flag assignment, visited set and queue evolution are
independent of it. -/
theorem qatRun_gq_or (g : TraceGraph) :
    ∀ (fuel : Nat) (st : PropState),
      qatRun g fuel st =
        (qatRun g fuel { st with gq := false }).map
          (fun r => { r with gq := st.gq || r.gq }) := by
  intro fuel
  induction fuel with
  | zero => intro st; simp [qatRun]
  | succ fuel ih =>
    intro st
    obtain ⟨fl, vis, qu, gqv, pr⟩ := st
    cases qu with
    | nil =>
      simp [qatRun]
    | cons head rest =>
      obtain ⟨node, q⟩ := head
      by_cases hv : node.unique_name ∈ vis
      · simp only [qatRun, hv, if_pos, Bool.false_or]
        rw [ih ⟨fl, vis, rest, gqv || q, pr ++ [q]⟩,
            ih ⟨fl, vis, rest, q, pr ++ [q]⟩]
        rw [map_addGq_comp]
      · by_cases ho : node.unique_name ∈ g.output_names
        · simp only [qatRun, hv, ho, if_pos, if_neg, not_false_iff, Bool.false_or]
          rw [ih ⟨fl, node.unique_name :: vis, rest, gqv || q, pr ++ [q]⟩,
              ih ⟨fl, node.unique_name :: vis, rest, q, pr ++ [q]⟩]
          rw [map_addGq_comp]
        · simp only [qatRun, hv, ho, if_neg, not_false_iff, Bool.false_or]
          rw [ih ⟨(node.unique_name, nodeFlagOf node.kind q) :: fl,
                  node.unique_name :: vis,
                  rest ++ (node.next_nodes.filterMap (lookupNode g)).map
                    (fun n => (n, propFlagOf node.kind q)),
                  gqv || q, pr ++ [q]⟩,
              ih ⟨(node.unique_name, nodeFlagOf node.kind q) :: fl,
                  node.unique_name :: vis,
                  rest ++ (node.next_nodes.filterMap (lookupNode g)).map
                    (fun n => (n, propFlagOf node.kind q)),
                  q, pr ++ [q]⟩]
          rw [map_addGq_comp]

end TinyNN

namespace TinyNN

/-- Looking up the key just inserted at the head of the flag list. -/
theorem lookup_cons_self {k : String} {v : Bool} {l : List (String × Bool)} :
    List.lookup k ((k, v) :: l) = some v := by
  simp [List.lookup]

/-- Looking up a different key skips the head of the flag list. -/
theorem lookup_cons_ne {k k' : String} {v : Bool} {l : List (String × Bool)}
    (h : k' ≠ k) : List.lookup k' ((k, v) :: l) = List.lookup k' l := by
  have hb : (k' == k) = false := by simpa using h
  simp [List.lookup, hb]

/-- A completed run has drained its queue, kept every previously visited name
visited, and visited the node of every entry that was in the queue. -/
theorem qatRun_drain (g : TraceGraph) :
    ∀ fuel st st', qatRun g fuel st = some st' →
      st'.queue = [] ∧ (∀ n ∈ st.visited, n ∈ st'.visited) ∧
      (∀ p ∈ st.queue, p.1.unique_name ∈ st'.visited) := by
  intro fuel
  induction fuel with
  | zero => intro st st' h; simp [qatRun] at h
  | succ fuel ih =>
    intro st st' h
    obtain ⟨fl, vis, qu, gqv, pr⟩ := st
    cases qu with
    | nil =>
      simp only [qatRun, Option.some.injEq] at h
      subst h
      refine ⟨rfl, fun n hn => hn, fun p hp => absurd hp (List.not_mem_nil p)⟩
    | cons head rest =>
      obtain ⟨node, q⟩ := head
      by_cases hv : node.unique_name ∈ vis
      · simp only [qatRun, hv, if_pos] at h
        obtain ⟨hq, hmono, hdrain⟩ := ih _ _ h
        refine ⟨hq, hmono, fun p hp => ?_⟩
        rcases List.mem_cons.mp hp with hp | hp
        · subst hp; exact hmono _ hv
        · exact hdrain p hp
      · by_cases ho : node.unique_name ∈ g.output_names
        · simp only [qatRun, hv, ho, if_pos, if_neg, not_false_iff] at h
          obtain ⟨hq, hmono, hdrain⟩ := ih _ _ h
          refine ⟨hq, fun n hn => hmono _ (List.mem_cons_of_mem _ hn), fun p hp => ?_⟩
          rcases List.mem_cons.mp hp with hp | hp
          · subst hp; exact hmono _ (List.mem_cons_self _ _)
          · exact hdrain p hp
        · simp only [qatRun, hv, ho, if_neg, not_false_iff] at h
          obtain ⟨hq, hmono, hdrain⟩ := ih _ _ h
          refine ⟨hq, fun n hn => hmono _ (List.mem_cons_of_mem _ hn), fun p hp => ?_⟩
          rcases List.mem_cons.mp hp with hp | hp
          · subst hp; exact hmono _ (List.mem_cons_self _ _)
          · exact hdrain p (List.mem_append_left _ hp)

end TinyNN

namespace TinyNN

/-- Run invariant: every queue entry resolves to itself by unique name. -/
def QueueInv (g : TraceGraph) (st : PropState) : Prop :=
  ∀ p ∈ st.queue, lookupNode g p.1.unique_name = some p.1

/-- Run invariant: every visited name is an output name, or it has been
assigned a `quantized` flag and each of its resolvable successors is either
visited or still scheduled in the queue. -/
def VisitInv (g : TraceGraph) (st : PropState) : Prop :=
  ∀ n ∈ st.visited, n ∈ g.output_names ∨
    ∃ node, lookupNode g n = some node ∧ (st.flags.lookup n).isSome = true ∧
      ∀ m ∈ node.next_nodes, ∀ mn, lookupNode g m = some mn →
        mn.unique_name ∈ st.visited ∨ ∃ q, (mn, q) ∈ st.queue

/-- Run invariant: a flag assigned to a `QuantStub` or `DeQuantStub` node is
`true`. -/
def FlagInv (g : TraceGraph) (st : PropState) : Prop :=
  ∀ n b, st.flags.lookup n = some b → ∀ node, lookupNode g n = some node →
    node.kind ≠ ModKind.other → b = true

/-- Run invariant: `graph.quantized` equals its initial value OR-ed with every
flag dequeued so far. -/
def GqInv (gq0 : Bool) (st : PropState) : Prop :=
  st.gq = (gq0 || st.processed.any id)

/-- All four run invariants are preserved by a completed run. -/
theorem qatRun_inv (g : TraceGraph) (gq0 : Bool) :
    ∀ fuel st st', qatRun g fuel st = some st' →
      QueueInv g st → VisitInv g st → FlagInv g st → GqInv gq0 st →
      QueueInv g st' ∧ VisitInv g st' ∧ FlagInv g st' ∧ GqInv gq0 st' := by
  intro fuel
  induction fuel with
  | zero => intro st st' h; simp [qatRun] at h
  | succ fuel ih =>
    intro st st' h hQ hV hF hG
    obtain ⟨fl, vis, qu, gqv, pr⟩ := st
    cases qu with
    | nil =>
      simp only [qatRun, Option.some.injEq] at h
      subst h
      exact ⟨hQ, hV, hF, hG⟩
    | cons head rest =>
      obtain ⟨node, q⟩ := head
      have hGq' : (gqv || q) = (gq0 || (pr ++ [q]).any id) := by
        have hg : gqv = (gq0 || pr.any id) := hG
        simp [hg, Bool.or_assoc]
      have hnode : lookupNode g node.unique_name = some node :=
        hQ (node, q) (List.mem_cons_self _ _)
      by_cases hv : node.unique_name ∈ vis
      · simp only [qatRun, hv, if_pos] at h
        refine ih _ _ h (fun p hp => hQ p (List.mem_cons_of_mem _ hp)) ?_ hF hGq'
        intro n hn
        rcases hV n hn with ho | ⟨nd, hlk, hfl, hsucc⟩
        · exact Or.inl ho
        · refine Or.inr ⟨nd, hlk, hfl, fun m hm mn hmn => ?_⟩
          rcases hsucc m hm mn hmn with hvis | ⟨q', hq'⟩
          · exact Or.inl hvis
          · rcases List.mem_cons.mp hq' with heq | hrest
            · have h1 : mn = node := congrArg Prod.fst heq
              exact Or.inl (by rw [h1]; exact hv)
            · exact Or.inr ⟨q', hrest⟩
      · by_cases ho : node.unique_name ∈ g.output_names
        · simp only [qatRun, hv, ho, if_pos, if_neg, not_false_iff] at h
          refine ih _ _ h (fun p hp => hQ p (List.mem_cons_of_mem _ hp)) ?_ hF hGq'
          intro n hn
          rcases List.mem_cons.mp hn with rfl | hn
          · exact Or.inl ho
          · rcases hV n hn with ho' | ⟨nd, hlk, hfl, hsucc⟩
            · exact Or.inl ho'
            · refine Or.inr ⟨nd, hlk, hfl, fun m hm mn hmn => ?_⟩
              rcases hsucc m hm mn hmn with hvis | ⟨q', hq'⟩
              · exact Or.inl (List.mem_cons_of_mem _ hvis)
              · rcases List.mem_cons.mp hq' with heq | hrest
                · have h1 : mn = node := congrArg Prod.fst heq
                  exact Or.inl (by rw [h1]; exact List.mem_cons_self _ _)
                · exact Or.inr ⟨q', hrest⟩
        · simp only [qatRun, hv, ho, if_neg, not_false_iff] at h
          have hQ1 : QueueInv g ⟨(node.unique_name, nodeFlagOf node.kind q) :: fl,
              node.unique_name :: vis,
              rest ++ (node.next_nodes.filterMap (lookupNode g)).map
                (fun n => (n, propFlagOf node.kind q)), gqv || q, pr ++ [q]⟩ := by
            intro p hp
            rcases List.mem_append.mp hp with hp | hp
            · exact hQ p (List.mem_cons_of_mem _ hp)
            · obtain ⟨mn, hmem, rfl⟩ := List.mem_map.mp hp
              obtain ⟨m, hm, hlk⟩ := List.mem_filterMap.mp hmem
              show lookupNode g mn.unique_name = some mn
              rw [lookupNode_name hlk]
              exact hlk
          have hV1 : VisitInv g ⟨(node.unique_name, nodeFlagOf node.kind q) :: fl,
              node.unique_name :: vis,
              rest ++ (node.next_nodes.filterMap (lookupNode g)).map
                (fun n => (n, propFlagOf node.kind q)), gqv || q, pr ++ [q]⟩ := by
            intro n hn
            rcases List.mem_cons.mp hn with rfl | hn
            · refine Or.inr ⟨node, hnode, ?_, ?_⟩
              · rw [lookup_cons_self]; rfl
              · intro m hm mn hmn
                refine Or.inr ⟨propFlagOf node.kind q, List.mem_append_right _ ?_⟩
                exact List.mem_map.mpr ⟨mn, List.mem_filterMap.mpr ⟨m, hm, hmn⟩, rfl⟩
            · rcases hV n hn with ho' | ⟨nd, hlk, hfl, hsucc⟩
              · exact Or.inl ho'
              · refine Or.inr ⟨nd, hlk, ?_, fun m hm mn hmn => ?_⟩
                · by_cases hne : n = node.unique_name
                  · subst hne; rw [lookup_cons_self]; rfl
                  · rw [lookup_cons_ne hne]; exact hfl
                · rcases hsucc m hm mn hmn with hvis | ⟨q', hq'⟩
                  · exact Or.inl (List.mem_cons_of_mem _ hvis)
                  · rcases List.mem_cons.mp hq' with heq | hrest
                    · have h1 : mn = node := congrArg Prod.fst heq
                      exact Or.inl (by rw [h1]; exact List.mem_cons_self _ _)
                    · exact Or.inr ⟨q', List.mem_append_left _ hrest⟩
          have hF1 : FlagInv g ⟨(node.unique_name, nodeFlagOf node.kind q) :: fl,
              node.unique_name :: vis,
              rest ++ (node.next_nodes.filterMap (lookupNode g)).map
                (fun n => (n, propFlagOf node.kind q)), gqv || q, pr ++ [q]⟩ := by
            intro n b hb nd hlk hkind
            by_cases hne : n = node.unique_name
            · subst hne
              rw [lookup_cons_self] at hb
              rw [hlk] at hnode
              have hnd : nd = node := Option.some.inj hnode
              subst hnd
              have hbv : nodeFlagOf nd.kind q = b := Option.some.inj hb
              cases hk : nd.kind with
              | quantStub => rw [← hbv]; simp [nodeFlagOf, hk]
              | deQuantStub => rw [← hbv]; simp [nodeFlagOf, hk]
              | other => exact absurd hk hkind
            · rw [lookup_cons_ne hne] at hb
              exact hF n b hb nd hlk hkind
          exact ih _ _ h hQ1 hV1 hF1 hGq'

end TinyNN

namespace TinyNN

/-- A seeded queue entry is an input or constant node of the graph. -/
theorem initSeeds_node_mem {g : TraceGraph} {iq : Option (List Bool)}
    {p : TraceNode × Bool} (hp : p ∈ initSeeds g iq) :
    p.1 ∈ g.input_nodes ++ g.constant_nodes := by
  cases iq with
  | none =>
    simp only [initSeeds] at hp
    rcases List.mem_append.mp hp with hp | hp
    · obtain ⟨n, hn, rfl⟩ := List.mem_map.mp hp
      exact List.mem_append_left _ hn
    · obtain ⟨n, hn, rfl⟩ := List.mem_map.mp hp
      exact List.mem_append_right _ hn
  | some bs =>
    simp only [initSeeds] at hp
    rcases List.mem_append.mp hp with hp | hp
    · obtain ⟨a, b⟩ := p
      exact List.mem_append_left _ (List.of_mem_zip hp).1
    · obtain ⟨n, hn, rfl⟩ := List.mem_map.mp hp
      exact List.mem_append_right _ hn

/-- The initial state of the propagation satisfies all four run invariants, so
a completed run satisfies them as well. -/
theorem prepare_qat_analysis_inv (g : TraceGraph) (iq : Option (List Bool))
    (gq0 : Bool) (fuel : Nat) (st : PropState) (hwf : WFGraph g)
    (hrun : prepare_qat_analysis g iq gq0 fuel = some st) :
    QueueInv g st ∧ VisitInv g st ∧ FlagInv g st ∧ GqInv gq0 st := by
  refine qatRun_inv g gq0 fuel _ st hrun ?_ ?_ ?_ ?_
  · intro p hp
    exact hwf p.1 (initSeeds_node_mem hp)
  · intro n hn
    exact absurd hn (List.not_mem_nil n)
  · intro n b hb
    simp [List.lookup] at hb
  · simp [GqInv]

/-- Every node reachable from the seeds ends up in the visited set of a
completed run. -/
theorem reachable_visited (g : TraceGraph) (iq : Option (List Bool)) (gq0 : Bool)
    (fuel : Nat) (st : PropState) (hwf : WFGraph g)
    (hrun : prepare_qat_analysis g iq gq0 fuel = some st) :
    ∀ n, ReachableFrom g (seedNames g iq) n → n ∈ st.visited := by
  obtain ⟨hdq, _, hdrain⟩ := qatRun_drain g fuel _ st hrun
  obtain ⟨_, hVf, _, _⟩ := prepare_qat_analysis_inv g iq gq0 fuel st hwf hrun
  intro n hr
  induction hr with
  | seed hmem =>
    obtain ⟨p, hp, hpn⟩ := List.mem_map.mp hmem
    exact hpn ▸ hdrain p hp
  | step hr' hout hlk hnext hsome ih =>
    rcases hVf _ ih with ho | ⟨nd, hlk', hfl, hsucc⟩
    · exact absurd ho hout
    · rw [hlk'] at hlk
      have hnd := Option.some.inj hlk
      subst hnd
      obtain ⟨mn, hmn⟩ := Option.isSome_iff_exists.mp hsome
      rcases hsucc _ hnext mn hmn with hvis | ⟨q', hq'⟩
      · rw [← lookupNode_name hmn]
        exact hvis
      · rw [hdq] at hq'
        exact absurd hq' (List.not_mem_nil _)

end TinyNN

namespace TinyNN

/-- A two-node graph whose input node feeds an output node directly. -/
def graphC1 : TraceGraph :=
  { nodes := [⟨"in0", ModKind.other, ["out0"], true⟩,
              ⟨"out0", ModKind.other, [], true⟩],
    input_nodes := [⟨"in0", ModKind.other, ["out0"], true⟩],
    constant_nodes := [],
    output_names := ["out0"] }

/-- The final propagation state of `graphC1`. -/
def stC1 : PropState :=
  { flags := [("in0", false)], visited := ["out0", "in0"], queue := [],
    gq := false, processed := [false, false] }

/-- **C1 — counterexample.** The claim states that after propagation every
node reachable from the seeded input/constant nodes has its `quantized` flag
set.  In `graphC1` the output node `out0` is reachable from the seeded input
`in0`, the run completes, yet `out0` never receives a flag: `_qat_analysis`
returns on output nodes before the assignment. -/
theorem claim_C1_counterexample :
    prepare_qat_analysis graphC1 none false 5 = some stC1 ∧
      ReachableFrom graphC1 (seedNames graphC1 none) "out0" ∧
      stC1.flags.lookup "out0" = none := by
  refine ⟨by decide, ?_, by decide⟩
  refine @ReachableFrom.step graphC1 (seedNames graphC1 none) "in0" "out0"
    ⟨"in0", ModKind.other, ["out0"], true⟩ (ReachableFrom.seed ?_) ?_ ?_ ?_ ?_
  · decide
  · decide
  · decide
  · decide
  · decide

/-- **C1 — amended.** For every completed propagation run on a well-formed
graph: (a) every node reachable from the seeded input/constant nodes that is
not an output node has its `quantized` flag set (output nodes are skipped
before the assignment); (b) a flag assigned to a `QuantStub` or `DeQuantStub`
node is `True` (any other node takes the incoming flag, which is what the
assignment in `qatRun` records); and (c) `graph.quantized` equals its initial
value OR-ed with every flag that passed through the work queue (the seed flags
and the flags propagated onward). -/
theorem claim_C1_amended (g : TraceGraph) (iq : Option (List Bool)) (gq0 : Bool)
    (fuel : Nat) (st : PropState) (hwf : WFGraph g)
    (hrun : prepare_qat_analysis g iq gq0 fuel = some st) :
    (∀ n, ReachableFrom g (seedNames g iq) n → n ∉ g.output_names →
        (st.flags.lookup n).isSome = true) ∧
    (∀ n b, st.flags.lookup n = some b → ∀ node, lookupNode g n = some node →
        node.kind ≠ ModKind.other → b = true) ∧
    st.gq = (gq0 || st.processed.any id) := by
  obtain ⟨_, hVf, hFf, hGf⟩ := prepare_qat_analysis_inv g iq gq0 fuel st hwf hrun
  refine ⟨?_, hFf, hGf⟩
  intro n hr hout
  have hvis := reachable_visited g iq gq0 fuel st hwf hrun n hr
  rcases hVf n hvis with ho | ⟨nd, _, hfl, _⟩
  · exact absurd ho hout
  · exact hfl

/-- **C1 — witness.** The amended theorem applied to the concrete run on
`graphC1`. -/
theorem claim_C1_witness : stC1.gq = (false || stC1.processed.any id) :=
  (claim_C1_amended graphC1 none false 5 stC1 (by decide) (by decide)).2.2

/-- A graph whose input feeds a successor-less `QuantStub`. -/
def graphC9 : TraceGraph :=
  { nodes := [⟨"i0", ModKind.other, ["q1"], true⟩,
              ⟨"q1", ModKind.quantStub, [], true⟩],
    input_nodes := [⟨"i0", ModKind.other, ["q1"], true⟩],
    constant_nodes := [],
    output_names := [] }

/-- The final propagation state of `graphC9`. -/
def stC9 : PropState :=
  { flags := [("q1", true), ("i0", false)], visited := ["q1", "i0"], queue := [],
    gq := false, processed := [false, false] }

/-- **C9.** Propagation determinism: the run reads only the graph structure
and the seeds, so re-running the propagation on the same graph with the same
`is_input_quantized` argument — after the first run has already mutated the
node flags and `graph.quantized` — reproduces exactly the same flag assignment
and the same `graph.quantized` value.  (Node `quantized` attributes are not
inputs of the analysis at all; `graph.quantized` is only OR-monotone, and the
second run starts from the first run's value.) -/
theorem claim_C9_deterministic (g : TraceGraph) (iq : Option (List Bool))
    (fuel : Nat) (st1 : PropState)
    (h : prepare_qat_analysis g iq false fuel = some st1) :
    prepare_qat_analysis g iq st1.gq fuel = some st1 := by
  unfold prepare_qat_analysis at h ⊢
  rw [qatRun_gq_or]
  simp only [h, Option.map_some']
  simp

/-- **C9 — witness.** The determinism theorem applied to the concrete run on
`graphC9`. -/
theorem claim_C9_witness :
    prepare_qat_analysis graphC9 none stC9.gq 5 = some stC9 :=
  claim_C9_deterministic graphC9 none 5 stC9 (by decide)

end TinyNN

namespace TinyNN

/-! ## Fusion rule tries (`load_processed_qat_rules`) and the backward fusion
matcher (`QATQuantizer.is_fusable`)

A Python rule trie is a dict mapping an operator type to a pair
`[is_terminal, children]`; the embedding uses an ordered association list
(Python dicts preserve insertion order, and `setdefault` appends new keys). -/

/-- A fusion-rule trie node: children keyed by operator type, each child a
terminal flag and a subtrie. -/
inductive RuleTrie where
  | node : List (String × Bool × RuleTrie) → RuleTrie

/-- The children of a trie node. -/
def RuleTrie.children : RuleTrie → List (String × Bool × RuleTrie)
  | .node cs => cs

/-- Dict lookup `current_rules[cur_class]`. -/
def RuleTrie.lookup (t : RuleTrie) (k : String) : Option (Bool × RuleTrie) :=
  (t.children.find? (fun c => c.1 == k)).map (fun c => c.2)

/-- `base_rule_dict.setdefault(module_cls, [False, {}])`: append a fresh
non-terminal child when the key is absent. -/
def setdefaultChild (cs : List (String × Bool × RuleTrie)) (k : String) :
    List (String × Bool × RuleTrie) :=
  if cs.any (fun c => c.1 == k) then cs else cs ++ [(k, false, RuleTrie.node [])]

/-- Insert one already-reversed rule (`reversed(fuse_rule)` in the Python
loop): walk the keys latest-consumer first, creating children as needed, and
mark the pair reached by the last key terminal (`base_rule_pair[0] = True`). -/
def insertRevRule (t : RuleTrie) : List String → RuleTrie
  | [] => t
  | k :: rest =>
    RuleTrie.node ((setdefaultChild t.children k).map (fun c =>
      if c.1 == k then
        if rest.isEmpty then (c.1, true, c.2.2)
        else (c.1, c.2.1, insertRevRule c.2.2 rest)
      else c))

/-- Stable insertion of a rule into a length-descending sorted list, matching
Python's stable `sorted(rules, key=len, reverse=True)`. -/
def insLenDesc (x : List String) : List (List String) → List (List String)
  | [] => [x]
  | y :: ys => if x.length ≤ y.length then y :: insLenDesc x ys else x :: y :: ys

/-- Stable sort by length, descending. -/
def sortLenDesc : List (List String) → List (List String)
  | [] => []
  | x :: xs => insLenDesc x (sortLenDesc xs)

/-- The body of `load_processed_qat_rules`: sort the rules by length
descending, then insert each rule by walking its operator types in reverse. -/
def compileRules (rules : List (List String)) : RuleTrie :=
  (sortLenDesc rules).foldl (fun t r => insertRevRule t r.reverse)
    (RuleTrie.node [])

/-- `load_processed_qat_rules` with its memoisation guard: the module-level
dict is rebuilt only when it is still empty, otherwise returned as is. -/
def load_processed_qat_rules (cache : RuleTrie) (rules : List (List String)) :
    RuleTrie :=
  if cache.children.isEmpty then compileRules rules else cache

/-- Follow a lookup path down the trie and report the terminal flag of the
last child reached. -/
def RuleTrie.terminalAt (t : RuleTrie) : List String → Option Bool
  | [] => none
  | [k] => (t.lookup k).map (fun c => c.1)
  | k :: rest =>
    match t.lookup k with
    | some c => c.2.terminalAt rest
    | none => none

/-- A node of the traced graph as the fusion matcher reads it: its unique
name, the canonical original name of its module
(`graph.module_original_name_dict[id(cur_module)]`), its operator type
(`cur_class`, the module class or the `TraceFunction` kind), the names of its
predecessors, and its `quantized` flag. -/
structure FNode where
  unique_name : String
  orig_name : String
  op_type : String
  prev_nodes : List String
  quantized : Bool
deriving DecidableEq, Repr

/-- The graph as the fusion matcher sees it. -/
structure FGraph where
  nodes : List FNode
deriving DecidableEq, Repr

/-- Resolve a node name. -/
def lookupF (g : FGraph) (name : String) : Option FNode :=
  g.nodes.find? (fun n => n.unique_name == name)

/-- `cur_name`: the original name when `use_original_name` is set, else the
node-local unique name. -/
def curNameOf (useOrig : Bool) (n : FNode) : String :=
  if useOrig then n.orig_name else n.unique_name

/-- The `while True` backward walk of `is_fusable`: stop when the operator
type is absent from the trie, when the dedup name is already consumed, or when
the node has no predecessor (this happens before the name is appended); append
the name, snapshot the chain when the trie child is terminal, stop after the
snapshot when the node does not have exactly one predecessor, else descend
into the single predecessor. -/
def fusableLoop (g : FGraph) (useOrig : Bool) (consumed : List String) :
    Nat → FNode → RuleTrie → List String → List String → Option (List String)
  | 0, _, _, _, _ => none
  | fuel + 1, cur, rules, names, finalNames =>
    match rules.lookup cur.op_type with
    | none => some finalNames
    | some (isTerm, childRules) =>
      if curNameOf useOrig cur ∈ consumed then some finalNames
      else
        match cur.prev_nodes with
        | [] => some finalNames
        | [p] =>
          match lookupF g p with
          | some pn =>
            fusableLoop g useOrig consumed fuel pn childRules
              (names ++ [curNameOf useOrig cur])
              (if isTerm then names ++ [curNameOf useOrig cur] else finalNames)
          | none => none
        | _ =>
          some (if isTerm then names ++ [curNameOf useOrig cur] else finalNames)

/-- The shared `custom_data` accumulator: the recorded fusion chains
(`custom_data[0]`) and the consumed-name set (`custom_data[1]`). -/
structure FuseState where
  chains : List (List String)
  consumed : List String
deriving DecidableEq, Repr

/-- `QATQuantizer.is_fusable`: reject non-quantized anchors when
`check_node_quantized`, run the backward walk, and on a non-empty best match
reverse it to earliest-to-latest order, record it as one fusion group and mark
all its member names consumed.  (Python adds the names after reversing the
list in place; the same names are added either way.) -/
def is_fusable (g : FGraph) (node : FNode) (st : FuseState) (rules : RuleTrie)
    (check_node_quantized useOrig : Bool) (fuel : Nat) :
    Option (Bool × FuseState) :=
  if check_node_quantized && !node.quantized then some (false, st)
  else
    match fusableLoop g useOrig st.consumed fuel node rules [] [] with
    | none => none
    | some finalNames =>
      if finalNames.isEmpty then some (false, st)
      else some (true, ⟨st.chains ++ [finalNames.reverse],
                        st.consumed ++ finalNames⟩)

/-- `graph.filter_forward_nodes(is_fusable, custom_data, reverse=True)`: call
the matcher once per candidate node, threading the shared accumulator. -/
def runFusions (g : FGraph) (rules : RuleTrie) (cq useOrig : Bool) (fuel : Nat) :
    List FNode → FuseState → Option FuseState
  | [], st => some st
  | nd :: rest, st =>
    match is_fusable g nd st rules cq useOrig fuel with
    | none => none
    | some (_, st') => runFusions g rules cq useOrig fuel rest st'

end TinyNN

namespace TinyNN

/-- Names returned by the backward walk were not consumed when the walk
started: every name is checked against the consumed set before it is appended,
and the snapshot only ever copies appended names. -/
theorem fusableLoop_not_consumed (g : FGraph) (useOrig : Bool)
    (consumed : List String) :
    ∀ fuel cur rules names finalNames r,
      fusableLoop g useOrig consumed fuel cur rules names finalNames = some r →
      (∀ n ∈ names, n ∉ consumed) → (∀ n ∈ finalNames, n ∉ consumed) →
      ∀ n ∈ r, n ∉ consumed := by
  intro fuel
  induction fuel with
  | zero => intro cur rules names finalNames r h; simp [fusableLoop] at h
  | succ fuel ih =>
    intro cur rules names finalNames r h hnm hfn
    rw [fusableLoop] at h
    split at h
    · cases h; exact hfn
    · rename_i isTerm childRules hlk
      split at h
      · cases h; exact hfn
      · rename_i hc
        have hnm' : ∀ n ∈ names ++ [curNameOf useOrig cur], n ∉ consumed := by
          intro n hn
          rcases List.mem_append.mp hn with hn | hn
          · exact hnm n hn
          · rw [List.mem_singleton.mp hn]; exact hc
        have hfn' : ∀ n ∈ (if isTerm then names ++ [curNameOf useOrig cur]
            else finalNames), n ∉ consumed := by
          by_cases ht : isTerm
          · rw [if_pos ht]; exact hnm'
          · rw [if_neg ht]; exact hfn
        split at h
        · cases h; exact hfn
        · split at h
          · exact ih _ _ _ _ r h hnm' hfn'
          · cases h
        · cases h; exact hfn'

/-- The dedup invariant of the shared accumulator: every recorded chain name
is in the consumed set, and no two recorded chains share a name. -/
def ChainsInv (st : FuseState) : Prop :=
  (∀ c ∈ st.chains, ∀ n ∈ c, n ∈ st.consumed) ∧
  List.Pairwise (fun c1 c2 => ∀ n ∈ c1, n ∉ c2) st.chains

/-- One `is_fusable` call preserves the dedup invariant. -/
theorem is_fusable_chains_inv (g : FGraph) (nd : FNode) (st st' : FuseState)
    (rules : RuleTrie) (cq useOrig : Bool) (fuel : Nat) (b : Bool)
    (h : is_fusable g nd st rules cq useOrig fuel = some (b, st'))
    (hinv : ChainsInv st) : ChainsInv st' := by
  unfold is_fusable at h
  split at h
  · cases h; exact hinv
  · split at h
    · cases h
    · rename_i finalNames hloop
      split at h
      · cases h; exact hinv
      · rename_i hemp
        cases h
        have hnew : ∀ n ∈ finalNames, n ∉ st.consumed :=
          fusableLoop_not_consumed g useOrig st.consumed fuel nd rules [] []
            finalNames hloop (by intro n hn; cases hn) (by intro n hn; cases hn)
        obtain ⟨hmem, hpw⟩ := hinv
        constructor
        · intro c hc n hn
          rcases List.mem_append.mp hc with hc | hc
          · exact List.mem_append_left _ (hmem c hc n hn)
          · rw [List.mem_singleton.mp hc] at hn
            exact List.mem_append_right _ (List.mem_reverse.mp hn)
        · rw [List.pairwise_append]
          refine ⟨hpw, List.pairwise_singleton _ _, ?_⟩
          intro c1 hc1 c2 hc2 n hn1 hn2
          rw [List.mem_singleton.mp hc2] at hn2
          exact hnew n (List.mem_reverse.mp hn2) (hmem c1 hc1 n hn1)

/-- Folding `is_fusable` over any anchor list preserves the dedup invariant. -/
theorem runFusions_chains_inv (g : FGraph) (rules : RuleTrie) (cq useOrig : Bool)
    (fuel : Nat) :
    ∀ anchors st st', runFusions g rules cq useOrig fuel anchors st = some st' →
      ChainsInv st → ChainsInv st' := by
  intro anchors
  induction anchors with
  | nil =>
    intro st st' h hinv
    cases h
    exact hinv
  | cons nd rest ih =>
    intro st st' h hinv
    rw [runFusions] at h
    cases hf : is_fusable g nd st rules cq useOrig fuel with
    | none => rw [hf] at h; cases h
    | some p =>
      obtain ⟨b, st1⟩ := p
      rw [hf] at h
      exact ih st1 st' h (is_fusable_chains_inv g nd st st1 rules cq useOrig fuel b hf hinv)

end TinyNN

namespace TinyNN

/-- **C2.** Fusion matcher dedup: starting from a fresh shared accumulator,
across all fusion chains returned by repeated `is_fusable` calls sharing one
consumed-set, no node name appears in more than one returned chain. -/
theorem claim_C2_fusion_dedup (g : FGraph) (rules : RuleTrie) (cq useOrig : Bool)
    (fuel : Nat) (anchors : List FNode) (st : FuseState)
    (h : runFusions g rules cq useOrig fuel anchors ⟨[], []⟩ = some st) :
    List.Pairwise (fun c1 c2 => ∀ n ∈ c1, n ∉ c2) st.chains :=
  (runFusions_chains_inv g rules cq useOrig fuel anchors ⟨[], []⟩ st h
    ⟨(by intro c hc; cases hc), List.Pairwise.nil⟩).2

/-- The compiled trie of the single rule `(A, B)`. -/
def fuseTrieW : RuleTrie :=
  RuleTrie.node [("B", false, RuleTrie.node [("A", true, RuleTrie.node [])])]

/-- Two disjoint `I → A → B` chains. -/
def fuseGraphW : FGraph :=
  ⟨[⟨"i1", "i1", "I", [], false⟩, ⟨"a1", "a1", "A", ["i1"], true⟩,
    ⟨"b1", "b1", "B", ["a1"], true⟩, ⟨"i2", "i2", "I", [], false⟩,
    ⟨"a2", "a2", "A", ["i2"], true⟩, ⟨"b2", "b2", "B", ["a2"], true⟩]⟩

/-- The accumulator after matching both anchors of `fuseGraphW`. -/
def fuseStW : FuseState :=
  ⟨[["a1", "b1"], ["a2", "b2"]], ["b1", "a1", "b2", "a2"]⟩

/-- **C2 — witness.** The dedup theorem applied to a concrete two-chain run. -/
theorem claim_C2_witness :
    List.Pairwise (fun c1 c2 => ∀ n ∈ c1, n ∉ c2) fuseStW.chains :=
  claim_C2_fusion_dedup fuseGraphW fuseTrieW true true 9
    [⟨"b1", "b1", "B", ["a1"], true⟩, ⟨"b2", "b2", "B", ["a2"], true⟩] fuseStW
    (by decide)

end TinyNN

namespace TinyNN

/-- The sequence of `(cur_name, is_terminal)` pairs visited by the backward
walk of `is_fusable`, in walking order (anchor first), with exactly the stop
conditions of the code: type absent from the trie, name consumed, node with no
predecessor (dropped without being recorded), and a multi-predecessor node
(recorded, then stop). -/
def walkSteps (g : FGraph) (useOrig : Bool) (consumed : List String) :
    Nat → FNode → RuleTrie → Option (List (String × Bool))
  | 0, _, _ => none
  | fuel + 1, cur, rules =>
    match rules.lookup cur.op_type with
    | none => some []
    | some (isTerm, childRules) =>
      if curNameOf useOrig cur ∈ consumed then some []
      else
        match cur.prev_nodes with
        | [] => some []
        | [p] =>
          match lookupF g p with
          | some pn =>
            (walkSteps g useOrig consumed fuel pn childRules).map
              (fun rest => (curNameOf useOrig cur, isTerm) :: rest)
          | none => none
        | _ => some [(curNameOf useOrig cur, isTerm)]

/-- Modelled from the spec: the backward walk as section 4.3 of the
specification describes it — stop at a type mismatch, at a consumed name, and
after a node with more than one predecessor, but record every matched node,
including one that has no predecessor (the specification's walk has no
unrecorded stop for predecessor-less nodes). -/
def walkStepsSpec (g : FGraph) (useOrig : Bool) (consumed : List String) :
    Nat → FNode → RuleTrie → Option (List (String × Bool))
  | 0, _, _ => none
  | fuel + 1, cur, rules =>
    match rules.lookup cur.op_type with
    | none => some []
    | some (isTerm, childRules) =>
      if curNameOf useOrig cur ∈ consumed then some []
      else
        match cur.prev_nodes with
        | [p] =>
          match lookupF g p with
          | some pn =>
            (walkStepsSpec g useOrig consumed fuel pn childRules).map
              (fun rest => (curNameOf useOrig cur, isTerm) :: rest)
          | none => none
        | _ => some [(curNameOf useOrig cur, isTerm)]

/-- The longest prefix of a walk that ends at a terminal trie child, as a name
chain in walking order; `[]` when no prefix is terminal. -/
def bestChain : List (String × Bool) → List String
  | [] => []
  | (n, t) :: rest =>
    if (bestChain rest).isEmpty then (if t then [n] else [])
    else n :: bestChain rest

end TinyNN

namespace TinyNN

/-- Refinement: the backward walk loop of `is_fusable` returns exactly the
longest terminal prefix of its visited steps, appended to the incoming chain
(and keeps the incoming snapshot when no terminal prefix exists). -/
theorem fusableLoop_eq_walkSteps (g : FGraph) (useOrig : Bool)
    (consumed : List String) :
    ∀ fuel cur rules names finalNames,
      fusableLoop g useOrig consumed fuel cur rules names finalNames =
        (walkSteps g useOrig consumed fuel cur rules).map
          (fun steps => if (bestChain steps).isEmpty then finalNames
                        else names ++ bestChain steps) := by
  intro fuel
  induction fuel with
  | zero => intro cur rules names finalNames; simp [fusableLoop, walkSteps]
  | succ fuel ih =>
    intro cur rules names finalNames
    cases hlk : rules.lookup cur.op_type with
    | none => simp [fusableLoop, walkSteps, hlk, bestChain]
    | some c =>
      obtain ⟨isTerm, childRules⟩ := c
      by_cases hc : curNameOf useOrig cur ∈ consumed
      · simp [fusableLoop, walkSteps, hlk, hc, bestChain]
      · cases hp : cur.prev_nodes with
        | nil => simp [fusableLoop, walkSteps, hlk, hc, hp, bestChain]
        | cons p ps =>
          cases ps with
          | nil =>
            cases hlkf : lookupF g p with
            | none => simp [fusableLoop, walkSteps, hlk, hc, hp, hlkf]
            | some pn =>
              simp only [fusableLoop, walkSteps, hlk, hc, hp, hlkf, if_neg,
                not_false_iff]
              rw [ih]
              rw [Option.map_map]
              congr 1
              funext steps
              simp only [Function.comp_apply]
              by_cases hbe : (bestChain steps).isEmpty
              · cases isTerm <;> simp [bestChain, hbe]
              · simp [bestChain, hbe, List.append_assoc]
          | cons p2 ps2 =>
            simp only [fusableLoop, walkSteps, hlk, hc, hp, if_neg, not_false_iff]
            cases isTerm <;> simp [bestChain]

end TinyNN

namespace TinyNN

/-- `bestChain` is the longest terminal prefix: either no step is terminal and
the chain is empty, or the chain is the prefix ending at the deepest terminal
step, and no terminal step lies deeper. -/
theorem bestChain_longest :
    ∀ steps : List (String × Bool),
      (bestChain steps = [] ∧
        ∀ (j : Nat) (x : String), steps[j]? = some (x, true) → False) ∨
      (∃ (k : Nat) (x : String), steps[k]? = some (x, true) ∧
        bestChain steps = ((steps.take (k + 1)).map Prod.fst) ∧
        ∀ (j : Nat) (y : String), steps[j]? = some (y, true) → j ≤ k) := by
  intro steps
  induction steps with
  | nil =>
    left
    refine ⟨rfl, fun j x h => ?_⟩
    simp at h
  | cons hd rest ih =>
    obtain ⟨n, t⟩ := hd
    rcases ih with ⟨hb, hnt⟩ | ⟨k, x, hk, hbc, hmax⟩
    · have hbe : (bestChain rest).isEmpty = true := by rw [hb]; rfl
      cases t
      · left
        constructor
        · simp [bestChain, hbe]
        · intro j y hj
          cases j with
          | zero => simp at hj
          | succ j => exact hnt j y (by simpa using hj)
      · right
        refine ⟨0, n, by simp, ?_, ?_⟩
        · simp [bestChain, hbe]
        · intro j y hj
          cases j with
          | zero => exact Nat.le_refl 0
          | succ j => exact absurd hj (fun hj' => hnt j y (by simpa using hj'))
    · have hk' : k < rest.length := by
        by_contra hge
        rw [List.getElem?_eq_none (Nat.le_of_not_lt hge)] at hk
        cases hk
      have hne : ((rest.take (k + 1)).map Prod.fst).isEmpty = false := by
        cases rest with
        | nil => simp at hk'
        | cons r rs => simp [List.take_succ_cons]
      have hbe : (bestChain rest).isEmpty = false := by rw [hbc]; exact hne
      right
      refine ⟨k + 1, x, by simpa using hk, ?_, ?_⟩
      · have htake : ((n, t) :: rest).take (k + 1 + 1) = (n, t) :: rest.take (k + 1) := rfl
        rw [htake, List.map_cons, ← hbc]
        simp [bestChain, hbe]
      · intro j y hj
        cases j with
        | zero => exact Nat.zero_le _
        | succ j => exact Nat.succ_le_succ (hmax j y (by simpa using hj))

end TinyNN

namespace TinyNN

/-- **C3 — amended.** During the backward walk, the recorded best match is
replaced exactly at the steps the walk records with a terminal trie child
(nodes with no predecessor are dropped before recording), a longer recorded
terminal match is never overwritten by a shallower one, and the returned chain
is the longest recorded terminal match, reversed to earliest-to-latest order
and appended to the accumulator together with its consumed names. -/
theorem claim_C3_amended (g : FGraph) (cur : FNode) (st : FuseState)
    (rules : RuleTrie) (cq useOrig : Bool) (fuel : Nat)
    (steps : List (String × Bool))
    (hw : walkSteps g useOrig st.consumed fuel cur rules = some steps)
    (hq : cq = false ∨ cur.quantized = true) :
    ((bestChain steps = [] ∧
        ∀ (j : Nat) (x : String), steps[j]? = some (x, true) → False) ∨
      (∃ (k : Nat) (x : String), steps[k]? = some (x, true) ∧
        bestChain steps = ((steps.take (k + 1)).map Prod.fst) ∧
        ∀ (j : Nat) (y : String), steps[j]? = some (y, true) → j ≤ k)) ∧
    (bestChain steps = [] →
      is_fusable g cur st rules cq useOrig fuel = some (false, st)) ∧
    (bestChain steps ≠ [] →
      is_fusable g cur st rules cq useOrig fuel =
        some (true, ⟨st.chains ++ [(bestChain steps).reverse],
                     st.consumed ++ bestChain steps⟩)) := by
  have hqf : (cq && !cur.quantized) = false := by
    rcases hq with rfl | hq
    · rfl
    · simp [hq]
  have hloop := fusableLoop_eq_walkSteps g useOrig st.consumed fuel cur rules [] []
  rw [hw] at hloop
  simp only [Option.map_some'] at hloop
  refine ⟨bestChain_longest steps, ?_, ?_⟩
  · intro hbe
    have hbe' : (bestChain steps).isEmpty = true := by rw [hbe]; rfl
    rw [hbe'] at hloop
    simp only [if_true, if_pos] at hloop
    simp [is_fusable, hqf, hloop]
  · intro hbe
    have hbe' : (bestChain steps).isEmpty = false := by
      cases hbc : bestChain steps with
      | nil => exact absurd hbc hbe
      | cons a l => rfl
    rw [hbe'] at hloop
    simp only [Bool.false_eq_true, if_false, List.nil_append] at hloop
    simp [is_fusable, hqf, hloop, hbe']

/-- A two-node chain `a → b` whose earliest node `a` has no predecessors. -/
def gC3 : FGraph := ⟨[⟨"a", "a", "A", [], true⟩, ⟨"b", "b", "B", ["a"], true⟩]⟩

/-- **C3 — counterexample.** The claim says the recorded best match is
replaced whenever a deeper terminal trie node is reached and the returned
chain is the longest terminal match.  On `gC3` with the rule `(A, B)`, the
walk as the specification describes it reaches the terminal trie child at
node `a`, so the longest terminal match is the full chain `["b", "a"]` — but
`is_fusable` drops the predecessor-less node `a` before the terminal snapshot
(`if len(prev_nodes) == 0: break`) and returns no match at all. -/
theorem claim_C3_counterexample :
    walkStepsSpec gC3 true [] 9 ⟨"b", "b", "B", ["a"], true⟩ fuseTrieW =
      some [("b", false), ("a", true)] ∧
    bestChain [("b", false), ("a", true)] = ["b", "a"] ∧
    is_fusable gC3 ⟨"b", "b", "B", ["a"], true⟩ ⟨[], []⟩ fuseTrieW true true 9 =
      some (false, ⟨[], []⟩) :=
  ⟨by decide, by decide, by decide⟩

/-- **C3 — witness.** The amended theorem applied to the concrete fusable
chain of `fuseGraphW`: the returned chain is the reversed longest terminal
match. -/
theorem claim_C3_witness :
    is_fusable fuseGraphW ⟨"b1", "b1", "B", ["a1"], true⟩ ⟨[], []⟩ fuseTrieW
        true true 9 =
      some (true, ⟨[["a1", "b1"]], ["b1", "a1"]⟩) :=
  (claim_C3_amended fuseGraphW ⟨"b1", "b1", "B", ["a1"], true⟩ ⟨[], []⟩
      fuseTrieW true true 9 [("b1", false), ("a1", true)] (by decide)
      (Or.inr rfl)).2.2 (by decide)

end TinyNN

namespace TinyNN

/-- Inserting a non-empty rule leaves the root with at least one child. -/
theorem insertRevRule_children_ne_nil (t : RuleTrie) (r : List String)
    (h : r ≠ []) : (insertRevRule t r).children ≠ [] := by
  cases r with
  | nil => exact absurd rfl h
  | cons k rest =>
    simp only [insertRevRule, RuleTrie.children]
    intro hmap
    rw [List.map_eq_nil_iff] at hmap
    unfold setdefaultChild at hmap
    split at hmap
    · rename_i hany
      rw [hmap] at hany
      simp at hany
    · exact absurd hmap (by simp)

/-- Folding non-empty rules over any trie leaves the root non-empty. -/
theorem foldl_insert_children_ne_nil :
    ∀ (rs : List (List String)) (t : RuleTrie), rs ≠ [] → (∀ r ∈ rs, r ≠ []) →
      ((rs.foldl (fun t r => insertRevRule t r.reverse) t).children ≠ []) := by
  intro rs
  induction rs with
  | nil => intro t h _; exact absurd rfl h
  | cons r rs' ih =>
    intro t _ hall
    cases rs' with
    | nil =>
      refine insertRevRule_children_ne_nil t r.reverse ?_
      simpa using hall r (List.mem_cons_self _ _)
    | cons r2 rs'' =>
      exact ih (insertRevRule t r.reverse) (by simp)
        (fun x hx => hall x (List.mem_cons_of_mem _ hx))

/-- Stable insertion never produces the empty list. -/
theorem insLenDesc_ne_nil (x : List String) :
    ∀ l : List (List String), insLenDesc x l ≠ [] := by
  intro l
  cases l with
  | nil => simp [insLenDesc]
  | cons y ys =>
    simp only [insLenDesc]
    split <;> simp

/-- Members of a stable insertion come from the inserted element or the list. -/
theorem mem_of_mem_insLenDesc {x r : List String} :
    ∀ {l : List (List String)}, r ∈ insLenDesc x l → r = x ∨ r ∈ l := by
  intro l
  induction l with
  | nil =>
    intro h
    rcases List.mem_singleton.mp h with rfl
    exact Or.inl rfl
  | cons y ys ih =>
    intro h
    simp only [insLenDesc] at h
    split at h
    · rcases List.mem_cons.mp h with rfl | h
      · exact Or.inr (List.mem_cons_self _ _)
      · rcases ih h with h | h
        · exact Or.inl h
        · exact Or.inr (List.mem_cons_of_mem _ h)
    · rcases List.mem_cons.mp h with rfl | h
      · exact Or.inl rfl
      · exact Or.inr h

/-- The sorted rule list is empty only for an empty rule set. -/
theorem sortLenDesc_ne_nil {rs : List (List String)} (h : rs ≠ []) :
    sortLenDesc rs ≠ [] := by
  cases rs with
  | nil => exact absurd rfl h
  | cons x xs => exact insLenDesc_ne_nil x (sortLenDesc xs)

/-- Sorting does not invent rules. -/
theorem mem_of_mem_sortLenDesc {r : List String} :
    ∀ {rs : List (List String)}, r ∈ sortLenDesc rs → r ∈ rs := by
  intro rs
  induction rs with
  | nil => intro h; cases h
  | cons x xs ih =>
    intro h
    rcases mem_of_mem_insLenDesc h with rfl | h
    · exact List.mem_cons_self _ _
    · exact List.mem_cons_of_mem _ (ih h)

/-- **C4.** Rule-trie compilation is idempotent through the memoisation guard:
for a non-empty set of non-empty rules, the first `load_processed_qat_rules`
call compiles the trie and a second call returns the very same structure.
Rules are inserted by walking their operator types in reverse (embodied in
`insertRevRule`, which consumes `reversed(fuse_rule)`), and for the singleton
rule set `{(A, B, C)}` the lookup path `C, B, A` reports the terminal flag
only at depth 3. -/
theorem claim_C4_rule_trie (rules : List (List String)) (hne : rules ≠ [])
    (hr : ∀ r ∈ rules, r ≠ []) :
    (load_processed_qat_rules (RuleTrie.node []) rules = compileRules rules ∧
     load_processed_qat_rules (load_processed_qat_rules (RuleTrie.node []) rules)
        rules = load_processed_qat_rules (RuleTrie.node []) rules) ∧
    (compileRules [["A", "B", "C"]]).terminalAt ["C"] = some false ∧
    (compileRules [["A", "B", "C"]]).terminalAt ["C", "B"] = some false ∧
    (compileRules [["A", "B", "C"]]).terminalAt ["C", "B", "A"] = some true := by
  have hcomp : (compileRules rules).children ≠ [] := by
    unfold compileRules
    refine foldl_insert_children_ne_nil _ _ (sortLenDesc_ne_nil hne) ?_
    exact fun r hmem => hr r (mem_of_mem_sortLenDesc hmem)
  have hfirst : load_processed_qat_rules (RuleTrie.node []) rules
      = compileRules rules := by
    unfold load_processed_qat_rules
    rw [if_pos]
    rfl
  refine ⟨⟨hfirst, ?_⟩, by decide, by decide, by decide⟩
  rw [hfirst]
  unfold load_processed_qat_rules
  rw [if_neg]
  simp [List.isEmpty_iff, hcomp]

/-- **C4 — witness.** The trie theorem applied to a concrete rule set. -/
theorem claim_C4_witness :
    load_processed_qat_rules
        (load_processed_qat_rules (RuleTrie.node []) [["A", "B"], ["A", "B", "C"]])
        [["A", "B"], ["A", "B", "C"]] =
      load_processed_qat_rules (RuleTrie.node []) [["A", "B"], ["A", "B", "C"]] :=
  (claim_C4_rule_trie [["A", "B"], ["A", "B", "C"]] (by decide) (by decide)).1.2

end TinyNN

namespace TinyNN

/-! ## Quantizer construction (`QATQuantizer.__init__` / `parse_config`,
`DynamicQuantizer.parse_config`)

The config dict is modelled as optional per-key overrides; `parse_config`
fills every key with its default when absent.  Assertion failures are
modelled as `Except.error` carrying the assertion message; log warnings have
no observable effect and are not modelled. -/

/-- The caller-provided config dict: `some v` when the key is present. -/
structure QuantConfigIn where
  rewrite_graph : Option Bool := none
  force_overwrite : Option Bool := none
  is_input_quantized : Option (List Bool) := none
  backend : Option String := none
  remove_weights_after_load : Option Bool := none
  asymmetric : Option Bool := none
  per_tensor : Option Bool := none
  disable_requantization_for_cat : Option Bool := none
  quantized_input_stats : Option (List (Option (Int × Int))) := none
  dynamic_lstm_quant : Option Bool := none
  quantized_op_stats : Option (List (String × Int × Int)) := none
  set_quantizable_op_stats : Option Bool := none

/-- The quantizer attributes set by `parse_config`. -/
structure QuantizerState where
  rewrite_graph : Bool
  force_overwrite : Bool
  is_input_quantized : Option (List Bool)
  backend : String
  remove_weights_after_load : Bool
  asymmetric : Bool
  per_tensor : Bool
  disable_requantization_for_cat : Option Bool
  quantized_input_stats : Option (List (Option (Int × Int)))
  dynamic_lstm_quant : Bool
  quantized_op_stats : Option (List (String × Int × Int))
  set_quantizable_op_stats : Bool
deriving DecidableEq, Repr

/-- `QATQuantizer.parse_config`: every key takes the caller's value when
present, else its default (`backend='qnnpack'`, `asymmetric=True`,
`per_tensor=True`, `disable_requantization_for_cat=None`, ...). -/
def parse_config (c : QuantConfigIn) : QuantizerState :=
  { rewrite_graph := c.rewrite_graph.getD true
    force_overwrite := c.force_overwrite.getD true
    is_input_quantized := c.is_input_quantized
    backend := c.backend.getD "qnnpack"
    remove_weights_after_load := c.remove_weights_after_load.getD false
    asymmetric := c.asymmetric.getD true
    per_tensor := c.per_tensor.getD true
    disable_requantization_for_cat := c.disable_requantization_for_cat
    quantized_input_stats := c.quantized_input_stats
    dynamic_lstm_quant := c.dynamic_lstm_quant.getD false
    quantized_op_stats := c.quantized_op_stats
    set_quantizable_op_stats := c.set_quantizable_op_stats.getD false }

/-- The tail of `QATQuantizer.__init__` after `parse_config`: the fbgemm
assertions, the `disable_requantization_for_cat` default resolution, and the
final per-channel consistency assertion.  Platform and unknown-backend log
warnings do not affect control flow. -/
def initCommonChecks (s : QuantizerState) : Except String QuantizerState :=
  if s.backend == "fbgemm" && !s.asymmetric then
    Except.error "Symmetric quantizaton for FBGEMM not supported"
  else if s.backend == "fbgemm" && s.per_tensor then
    Except.error
      "Per-tensor quantizaton for FBGEMM not supported, please use per-channel quantization instead"
  else
    let s :=
      match s.disable_requantization_for_cat with
      | none => { s with disable_requantization_for_cat := some (!s.per_tensor) }
      | some _ => s
    if s.per_tensor || (s.disable_requantization_for_cat.getD false) then
      Except.ok s
    else
      Except.error
        "`disable_requantization_for_cat=True` is required for per-channel quantization"

/-- `QATQuantizer.__init__`: parse the config, then run the construction-time
checks.  No graph is traced here; tracing happens later in `quantize()`. -/
def qatQuantizerInit (c : QuantConfigIn) : Except String QuantizerState :=
  initCommonChecks (parse_config c)

/-- `DynamicQuantizer.parse_config`: run the base `parse_config`, force
`rewrite_graph = False`, then assert that asymmetric and per-channel
quantization are not requested; construction continues with the common
`__init__` checks. -/
def dynamicQuantizerInit (c : QuantConfigIn) : Except String QuantizerState :=
  let s := parse_config c
  let s := { s with rewrite_graph := false }
  if s.asymmetric then
    Except.error "Asymmetric quantization is not supported for DynamicQuantizer"
  else if !s.per_tensor then
    Except.error "Per-channel quantization is not supported for DynamicQuantizer"
  else
    initCommonChecks s

/-- **C5.** `DynamicQuantizer` configuration with `asymmetric=True` raises at
configuration time (during construction), and so does `per_tensor=False`; the
failure happens inside `parse_config`, before `quantize()` could touch any
graph. -/
theorem claim_C5_dynamic_config (c : QuantConfigIn) :
    ((parse_config c).asymmetric = true →
      dynamicQuantizerInit c =
        Except.error "Asymmetric quantization is not supported for DynamicQuantizer") ∧
    ((parse_config c).per_tensor = false →
      (dynamicQuantizerInit c).isOk = false) := by
  constructor
  · intro ha
    unfold dynamicQuantizerInit
    simp [ha]
  · intro hp
    unfold dynamicQuantizerInit
    by_cases ha : (parse_config c).asymmetric
    · simp [ha, Except.isOk, Except.toBool]
    · simp only [ha, Bool.false_eq_true, if_false, hp]
      simp [Except.isOk, Except.toBool]

/-- **C5 — witness.** Requesting `asymmetric=True` (the default) makes the
dynamic quantizer construction fail with the asymmetric assertion. -/
theorem claim_C5_witness :
    dynamicQuantizerInit { asymmetric := some true } =
      Except.error "Asymmetric quantization is not supported for DynamicQuantizer" :=
  (claim_C5_dynamic_config { asymmetric := some true }).1 rfl

/-- **C8.** Constructing any quantizer with `backend='fbgemm'` and
`asymmetric=False` raises the symmetric-quantization assertion, and
`backend='fbgemm'` with `per_tensor=True` raises an assertion as well; both
checks run in `__init__` right after `parse_config`, before any other work. -/
theorem claim_C8_fbgemm_asserts (c : QuantConfigIn)
    (hb : (parse_config c).backend = "fbgemm") :
    ((parse_config c).asymmetric = false →
      qatQuantizerInit c =
        Except.error "Symmetric quantizaton for FBGEMM not supported") ∧
    ((parse_config c).per_tensor = true →
      (qatQuantizerInit c).isOk = false) := by
  constructor
  · intro ha
    unfold qatQuantizerInit initCommonChecks
    simp [hb, ha]
  · intro hp
    unfold qatQuantizerInit initCommonChecks
    by_cases ha : (parse_config c).asymmetric
    · simp [hb, ha, hp, Except.isOk, Except.toBool]
    · simp [hb, ha, Except.isOk, Except.toBool]

/-- **C8 — witness.** `backend='fbgemm'` with `asymmetric=False` fails with
the symmetric assertion. -/
theorem claim_C8_witness :
    qatQuantizerInit { backend := some "fbgemm", asymmetric := some false } =
      Except.error "Symmetric quantizaton for FBGEMM not supported" :=
  (claim_C8_fbgemm_asserts
    { backend := some "fbgemm", asymmetric := some false } rfl).1 rfl

end TinyNN

namespace TinyNN

/-! ## Algebraic rewrites of `rewrite_quantize_graph` (`div`, `sub`)

A small numeric dataflow IR: tensors are lists of rationals (the rewrites at
stake — sign flips and reciprocal multiplication — are exact), nodes are
`TraceFunction`-style ops with name-linked inputs.  `leaf` stands for a
producer whose value is known; the scalar-carrying ops mirror the parsed
`args_string_no_self` constant of the Python code.  The dtype guards of the
rewrite predicates (`float32` operands and results, divisor not a
shape/size query, `func_type != '__rtruediv__'`) restrict which Python nodes
are rewritten; every IR op here is a floating tensor op, and the right-division
and shape/size cases are simply not part of the IR. -/

/-- IR operators: value producer, elementwise two-tensor add/sub, and the
scalar-constant forms (`add`, `sub`, `radd`, `rsub`, `mul`, `div`). -/
inductive ROp where
  | leaf (vals : List ℚ)
  | addT
  | subT
  | addC (c : ℚ)
  | subC (c : ℚ)
  | raddC (c : ℚ)
  | rsubC (c : ℚ)
  | mulC (c : ℚ)
  | divC (c : ℚ)
deriving DecidableEq, Repr

/-- An IR node: unique name, operator, input node names. -/
structure RNode where
  name : String
  op : ROp
  inputs : List String
deriving DecidableEq, Repr

/-- Operator semantics on evaluated arguments. -/
def evalOp : ROp → List (List ℚ) → Option (List ℚ)
  | .leaf vs, [] => some vs
  | .addT, [a, b] => some (List.zipWith (· + ·) a b)
  | .subT, [a, b] => some (List.zipWith (· - ·) a b)
  | .addC c, [a] => some (a.map (· + c))
  | .subC c, [a] => some (a.map (· - c))
  | .raddC c, [a] => some (a.map (fun x => c + x))
  | .rsubC c, [a] => some (a.map (fun x => c - x))
  | .mulC c, [a] => some (a.map (· * c))
  | .divC c, [a] => some (a.map (· / c))
  | _, _ => none

/-- Resolve an IR node by name. -/
def findR (nodes : List RNode) (name : String) : Option RNode :=
  nodes.find? (fun n => n.name == name)

/-- Fuel-indexed evaluation of a node's output value (all IR operators are
nullary, unary or binary). -/
def evalNode (nodes : List RNode) : Nat → String → Option (List ℚ)
  | 0, _ => none
  | fuel + 1, name =>
    match findR nodes name with
    | none => none
    | some nd =>
      match nd.inputs with
      | [] => evalOp nd.op []
      | [i] =>
        match evalNode nodes fuel i with
        | some a => evalOp nd.op [a]
        | none => none
      | [i, j] =>
        match evalNode nodes fuel i, evalNode nodes fuel j with
        | some a, some b => evalOp nd.op [a, b]
        | _, _ => none
      | _ => none

/-- The `div` rewrite of `rewrite_quantize_graph`: a division by a
compile-time constant becomes a multiplication by its reciprocal
(`node.module.parse_args(node.prev_tensors[0], 1.0 / other_arg)`), keeping
the node in place. -/
def rewriteDivNode (nd : RNode) : RNode :=
  match nd.op, nd.inputs with
  | .divC c, [_] => { nd with op := ROp.mulC (1 / c) }
  | _, _ => nd

/-- The `div` pass over the whole graph. -/
def rewriteDivPass (nodes : List RNode) : List RNode :=
  nodes.map rewriteDivNode

/-- The unique name of the `__mul__` helper node that `insert_between`
introduces (`TraceFunction(new_fullname, True, prefix='fuse_')`). -/
def mulName (nd : RNode) : String := nd.name ++ "_fuse_mul"

/-- The `sub` rewrite of `rewrite_quantize_graph`, one node at a time:
`sub(x, c)` becomes `add(x, -c)`; `rsub(x, c)` (that is, `c - x`) inserts
`mul(x, -1)` and becomes the commuted `radd` with constant `c`;
`sub(a, b)` with two tensor operands inserts `mul(b, -1)` between `b`'s
producer and the node and becomes `add(a, that_result)`. -/
def rewriteSubNode (nd : RNode) : List RNode :=
  match nd.op, nd.inputs with
  | .subC c, [a] => [{ nd with op := ROp.addC (-c), inputs := [a] }]
  | .rsubC c, [a] =>
      [⟨mulName nd, ROp.mulC (-1), [a]⟩,
       { nd with op := ROp.raddC c, inputs := [mulName nd] }]
  | .subT, [a, b] =>
      [⟨mulName nd, ROp.mulC (-1), [b]⟩,
       { nd with op := ROp.addT, inputs := [a, mulName nd] }]
  | _, _ => [nd]

/-- The `sub` pass over the whole graph. -/
def rewriteSubPass (nodes : List RNode) : List RNode :=
  (nodes.map rewriteSubNode).flatten

/-- The node a `sub` node is turned into in place (the second element of
`rewriteSubNode` when a helper is inserted). -/
def mainSub (nd : RNode) : RNode :=
  match nd.op, nd.inputs with
  | .subC c, [a] => { nd with op := ROp.addC (-c), inputs := [a] }
  | .rsubC c, [_] => { nd with op := ROp.raddC c, inputs := [mulName nd] }
  | .subT, [a, _] => { nd with op := ROp.addT, inputs := [a, mulName nd] }
  | _, _ => nd

end TinyNN

namespace TinyNN

/-- The `div` pass keeps names in place. -/
theorem findR_rewriteDivPass (nodes : List RNode) (name : String) :
    findR (rewriteDivPass nodes) name = (findR nodes name).map rewriteDivNode := by
  unfold findR rewriteDivPass
  have hp : ((fun n : RNode => n.name == name) ∘ rewriteDivNode) =
      (fun n : RNode => n.name == name) := by
    funext nd
    simp only [Function.comp_apply]
    have hn : (rewriteDivNode nd).name = nd.name := by
      unfold rewriteDivNode; split <;> rfl
    rw [hn]
  rw [List.find?_map, hp]

/-- The rewritten operator computes the same value on any argument list:
`x * (1 / c) = x / c`. -/
theorem evalOp_rewriteDivNode (nd : RNode) (args : List (List ℚ)) :
    evalOp (rewriteDivNode nd).op args = evalOp nd.op args := by
  unfold rewriteDivNode
  split
  · rename_i hop hinp
    rw [hop]
    match args with
    | [] => rfl
    | [a] => simp [evalOp, div_eq_mul_inv]
    | a :: b :: rest => rfl
  · rfl

/-- Evaluation is unchanged by the `div` pass, node by node. -/
theorem evalNode_rewriteDivPass (nodes : List RNode) :
    ∀ fuel name,
      evalNode (rewriteDivPass nodes) fuel name = evalNode nodes fuel name := by
  intro fuel
  induction fuel with
  | zero => intro name; rfl
  | succ fuel ih =>
    intro name
    simp only [evalNode, findR_rewriteDivPass]
    cases hf : findR nodes name with
    | none => rfl
    | some nd =>
      simp only [Option.map_some']
      have hinp : (rewriteDivNode nd).inputs = nd.inputs := by
        unfold rewriteDivNode; split <;> rfl
      rw [hinp]
      cases hi : nd.inputs with
      | nil => exact evalOp_rewriteDivNode nd []
      | cons i rest =>
        cases rest with
        | nil =>
          simp only [ih]
          cases evalNode nodes fuel i with
          | none => rfl
          | some a => exact evalOp_rewriteDivNode nd [a]
        | cons j rest2 =>
          cases rest2 with
          | nil =>
            simp only [ih]
            cases evalNode nodes fuel i with
            | none => rfl
            | some a =>
              cases evalNode nodes fuel j with
              | none => rfl
              | some b => exact evalOp_rewriteDivNode nd [a, b]
          | cons k rest3 => rfl

end TinyNN

namespace TinyNN

/-- The concrete division graph `x = [4.0]; d = x / 2.0`. -/
def divGraphW : List RNode := [⟨"x", ROp.leaf [4], []⟩, ⟨"d", ROp.divC 2, ["x"]⟩]

/-- **C7.** Division-by-constant rewrite: every `div`-by-constant node is
replaced in place by `mul(x, 1/c)`, and evaluation of every node of the graph
is unchanged (exactly, since `x * (1/c) = x / c`; in the Python code the
rewrite computes `1.0 / other_arg` and would raise `ZeroDivisionError` for a
zero divisor, hence the non-zero-divisor hypothesis on the graph).  On the
concrete graph `x = [4.0], c = 2.0`, both the original and the rewritten
graph evaluate to `[2.0]`. -/
theorem claim_C7_div_rewrite (nodes : List RNode) (fuel : Nat) (name : String)
    (_hnz : ∀ nd ∈ nodes, nd.op ≠ ROp.divC 0) :
    evalNode (rewriteDivPass nodes) fuel name = evalNode nodes fuel name ∧
    rewriteDivNode ⟨"d", ROp.divC 2, ["x"]⟩ = ⟨"d", ROp.mulC (1 / 2), ["x"]⟩ ∧
    evalNode divGraphW 2 "d" = some [2] ∧
    evalNode (rewriteDivPass divGraphW) 2 "d" = some [2] := by
  refine ⟨evalNode_rewriteDivPass nodes fuel name, rfl, ?_, ?_⟩
  · simp +decide [evalNode, evalOp, findR, divGraphW, List.find?]
    norm_num
  · simp +decide [evalNode, evalOp, findR, divGraphW, rewriteDivPass,
      rewriteDivNode, List.find?]
    norm_num

/-- **C7 — witness.** The rewrite theorem applied to the concrete graph. -/
theorem claim_C7_witness :
    evalNode (rewriteDivPass divGraphW) 2 "d" = evalNode divGraphW 2 "d" :=
  (claim_C7_div_rewrite divGraphW 2 "d" (by decide)).1

end TinyNN

namespace TinyNN

/-- The generated helper name differs from the node's own name. -/
theorem mulName_ne_self (nd : RNode) : mulName nd ≠ nd.name := by
  intro h
  have hlen := congrArg String.length h
  simp [mulName, String.length_append] at hlen
  exact absurd hlen (by decide)

/-- Helper names are injective on node names. -/
theorem mulName_inj {a b : RNode} (h : mulName a = mulName b) : a.name = b.name := by
  have hd := congrArg String.data h
  simp [mulName, String.data_append] at hd
  exact String.ext hd

/-- Evaluation is monotone in the fuel. -/
theorem evalNode_mono (nodes : List RNode) :
    ∀ fuel name v, evalNode nodes fuel name = some v →
      evalNode nodes (fuel + 1) name = some v := by
  intro fuel
  induction fuel with
  | zero => intro name v h; simp [evalNode] at h
  | succ fuel ih =>
    intro name v h
    rw [evalNode] at h
    rw [evalNode]
    cases hf : findR nodes name with
    | none => simp [hf] at h
    | some nd =>
      simp only [hf] at h ⊢
      cases hi : nd.inputs with
      | nil =>
        simp only [hi] at h
        exact h
      | cons i rest =>
        cases rest with
        | nil =>
          simp only [hi] at h
          cases he : evalNode nodes fuel i with
          | none => simp [he] at h
          | some a =>
            simp only [he] at h
            simp only [ih i a he]
            exact h
        | cons j rest2 =>
          cases rest2 with
          | nil =>
            simp only [hi] at h
            cases he : evalNode nodes fuel i with
            | none => simp [he] at h
            | some a =>
              cases he2 : evalNode nodes fuel j with
              | none => simp [he, he2] at h
              | some b =>
                simp only [he, he2] at h
                simp only [ih i a he, ih j b he2]
                exact h
          | cons k rest3 =>
            simp only [hi] at h
            exact h

/-- Evaluation at any larger fuel. -/
theorem evalNode_mono_le (nodes : List RNode) {fuel fuel' : Nat}
    (hle : fuel ≤ fuel') {name : String} {v : List ℚ}
    (h : evalNode nodes fuel name = some v) :
    evalNode nodes fuel' name = some v := by
  induction fuel' with
  | zero =>
    have : fuel = 0 := Nat.le_zero.mp hle
    subst this
    exact h
  | succ fuel' ih =>
    rcases Nat.le_succ_iff.mp hle with hle' | rfl
    · exact evalNode_mono nodes fuel' name v (ih hle')
    · exact h

end TinyNN

namespace TinyNN

/-- Whether `rewriteSubNode` inserts a helper `mul` node. -/
def hasHelper (nd : RNode) : Bool :=
  match nd.op, nd.inputs with
  | .rsubC _, [_] => true
  | .subT, [_, _] => true
  | _, _ => false

/-- The helper node inserted by `rewriteSubNode` (meaningful when
`hasHelper`). -/
def mulNodeOf (nd : RNode) : RNode :=
  match nd.op, nd.inputs with
  | .rsubC _, [a] => ⟨mulName nd, ROp.mulC (-1), [a]⟩
  | .subT, [_, b] => ⟨mulName nd, ROp.mulC (-1), [b]⟩
  | _, _ => nd

/-- Within a rewritten block, looking up the node's own name yields the
in-place rewritten node. -/
theorem block_find_self (nd : RNode) :
    (rewriteSubNode nd).find? (fun x => x.name == nd.name) = some (mainSub nd) := by
  have hmul : ((mulName nd == nd.name) = false) := by
    simpa using mulName_ne_self nd
  unfold rewriteSubNode
  split
  · rename_i c a hop hinp
    simp [mainSub, hop, hinp, List.find?]
  · rename_i c a hop hinp
    simp [mainSub, hop, hinp, List.find?, hmul]
  · rename_i a b hop hinp
    simp [mainSub, hop, hinp, List.find?, hmul]
  · rename_i hn1 hn2 hn3
    simp [List.find?]
    unfold mainSub
    split
    · rename_i c a hop hinp
      exact (hn1 c a hop hinp).elim
    · rename_i c a hop hinp
      exact (hn2 c a hop hinp).elim
    · rename_i a b hop hinp
      exact (hn3 a b hop hinp).elim
    · rfl

end TinyNN

namespace TinyNN

/-- A rewritten block contains only the original name and the helper name. -/
theorem block_find_other (nd : RNode) (name : String) (h1 : name ≠ nd.name)
    (h2 : name ≠ mulName nd) :
    (rewriteSubNode nd).find? (fun x => x.name == name) = none := by
  have hb1 : ((nd.name == name) = false) := by simpa using Ne.symm h1
  have hb2 : ((mulName nd == name) = false) := by simpa using Ne.symm h2
  unfold rewriteSubNode
  split
  · simp [List.find?, hb1]
  · simp [List.find?, hb1, hb2]
  · simp [List.find?, hb1, hb2]
  · simp [List.find?, hb1]

/-- Within a rewritten block with a helper, looking up the helper name yields
the inserted `mul(·, -1)` node. -/
theorem block_find_mul (nd : RNode) (hh : hasHelper nd = true) :
    (rewriteSubNode nd).find? (fun x => x.name == mulName nd) =
      some (mulNodeOf nd) := by
  unfold rewriteSubNode
  split
  · rename_i c a hop hinp
    exact absurd hh (by simp [hasHelper, hop, hinp])
  · rename_i c a hop hinp
    simp [mulNodeOf, hop, hinp, List.find?]
  · rename_i a b hop hinp
    simp [mulNodeOf, hop, hinp, List.find?]
  · rename_i hn1 hn2 hn3
    exfalso
    unfold hasHelper at hh
    split at hh
    · rename_i hop hinp
      rename_i c a
      exact hn2 c a hop hinp
    · rename_i hop hinp
      rename_i a b
      exact hn3 a b hop hinp
    · exact Bool.false_ne_true hh

/-- A successful name lookup pins the node's name and membership. -/
theorem findR_some {nodes : List RNode} {name : String} {nd : RNode}
    (h : findR nodes name = some nd) : nd.name = name ∧ nd ∈ nodes := by
  unfold findR at h
  refine ⟨by simpa using List.find?_some h, List.mem_of_find?_eq_some h⟩

/-- Resolving an original node name in the graph rewritten by the `sub` pass
yields the in-place rewritten node, provided no helper name collides with the
name being resolved. -/
theorem findR_rewriteSubPass :
    ∀ (nodes : List RNode) (name : String),
      (∀ x ∈ nodes, mulName x ≠ name) →
      ∀ nd, findR nodes name = some nd →
      findR (rewriteSubPass nodes) name = some (mainSub nd) := by
  intro nodes
  induction nodes with
  | nil => intro name _ nd h; simp [findR] at h
  | cons hd tl ih =>
    intro name hmul nd h
    have hsplit : rewriteSubPass (hd :: tl) =
        rewriteSubNode hd ++ rewriteSubPass tl := by
      simp [rewriteSubPass]
    unfold findR at h ⊢
    rw [hsplit, List.find?_append]
    by_cases he : hd.name = name
    · rw [List.find?_cons_of_pos _ (by simpa using he)] at h
      cases h
      rw [← he]
      rw [block_find_self hd]
      rfl
    · rw [List.find?_cons_of_neg _ (by simpa using he)] at h
      rw [block_find_other hd name (fun hx => he hx.symm)
        (fun hx => hmul hd (List.mem_cons_self _ _) hx.symm)]
      rw [Option.none_or]
      have := ih name (fun x hx => hmul x (List.mem_cons_of_mem _ hx)) nd h
      unfold findR at this
      exact this

/-- Resolving a helper name in the rewritten graph yields the inserted
`mul(·, -1)` node of its `sub` node. -/
theorem findR_mul_rewriteSubPass :
    ∀ (nodes : List RNode),
      (nodes.map RNode.name).Nodup →
      (∀ x ∈ nodes, ∀ y ∈ nodes, x.name ≠ mulName y) →
      ∀ nd ∈ nodes, hasHelper nd = true →
      findR (rewriteSubPass nodes) (mulName nd) = some (mulNodeOf nd) := by
  intro nodes
  induction nodes with
  | nil => intro _ _ nd h; cases h
  | cons hd tl ih =>
    intro hnodup hfresh nd hmem hh
    have hsplit : rewriteSubPass (hd :: tl) =
        rewriteSubNode hd ++ rewriteSubPass tl := by
      simp [rewriteSubPass]
    unfold findR
    rw [hsplit, List.find?_append]
    rcases List.mem_cons.mp hmem with rfl | hmem
    · rw [block_find_mul nd hh]
      rfl
    · have hne1 : hd.name ≠ mulName nd :=
        hfresh hd (List.mem_cons_self _ _) nd (List.mem_cons_of_mem _ hmem)
      have hne2 : mulName hd ≠ mulName nd := by
        intro h
        have hname := mulName_inj h
        have : hd.name ∈ tl.map RNode.name :=
          hname ▸ List.mem_map.mpr ⟨nd, hmem, rfl⟩
        exact (List.nodup_cons.mp (by simpa using hnodup)).1 this
      rw [block_find_other hd (mulName nd) (fun h => hne1 h.symm)
        (fun h => hne2 h.symm)]
      rw [Option.none_or]
      have := ih (List.nodup_cons.mp (by simpa using hnodup)).2
        (fun x hx y hy => hfresh x (List.mem_cons_of_mem _ hx) y
          (List.mem_cons_of_mem _ hy)) nd hmem hh
      unfold findR at this
      exact this

end TinyNN

namespace TinyNN

/-- Elementwise `a + (b * -1) = a - b`. -/
theorem zipWith_add_mul_negone (a : List ℚ) :
    ∀ b : List ℚ,
      List.zipWith (· + ·) a (b.map (· * -1)) = List.zipWith (· - ·) a b := by
  induction a with
  | nil => intro b; simp
  | cons x xs ih =>
    intro b
    cases b with
    | nil => simp
    | cons y ys =>
      simp only [List.map_cons, List.zipWith_cons_cons, ih ys]
      congr 1
      ring

/-- Elementwise `c + (x * -1) = c - x`. -/
theorem map_radd_mul_negone (c : ℚ) (a : List ℚ) :
    (a.map (· * -1)).map (fun x => c + x) = a.map (fun x => c - x) := by
  simp [Function.comp, sub_eq_add_neg]

/-- Elementwise `x + (-c) = x - c`. -/
theorem map_add_neg_const (c : ℚ) (a : List ℚ) :
    a.map (· + (-c)) = a.map (· - c) := by
  simp [sub_eq_add_neg]

/-- The four shapes the `sub` rewrite distinguishes. -/
theorem mainSub_cases (nd : RNode) :
    (∃ c a, nd.op = ROp.subC c ∧ nd.inputs = [a] ∧
       mainSub nd = { nd with op := ROp.addC (-c), inputs := [a] }) ∨
    (∃ c a, nd.op = ROp.rsubC c ∧ nd.inputs = [a] ∧
       mainSub nd = { nd with op := ROp.raddC c, inputs := [mulName nd] } ∧
       mulNodeOf nd = ⟨mulName nd, ROp.mulC (-1), [a]⟩ ∧ hasHelper nd = true) ∨
    (∃ a b, nd.op = ROp.subT ∧ nd.inputs = [a, b] ∧
       mainSub nd = { nd with op := ROp.addT, inputs := [a, mulName nd] } ∧
       mulNodeOf nd = ⟨mulName nd, ROp.mulC (-1), [b]⟩ ∧ hasHelper nd = true) ∨
    (mainSub nd = nd) := by
  unfold mainSub
  split
  · rename_i c a hop hinp
    exact Or.inl ⟨c, a, hop, hinp, rfl⟩
  · rename_i c a hop hinp
    refine Or.inr (Or.inl ⟨c, a, hop, hinp, rfl, ?_, ?_⟩)
    · simp [mulNodeOf, hop, hinp]
    · simp [hasHelper, hop, hinp]
  · rename_i a b hop hinp
    refine Or.inr (Or.inr (Or.inl ⟨a, b, hop, hinp, rfl, ?_, ?_⟩))
    · simp [mulNodeOf, hop, hinp]
    · simp [hasHelper, hop, hinp]
  · exact Or.inr (Or.inr (Or.inr rfl))

end TinyNN

namespace TinyNN

/-- Evaluation is preserved by the `sub` pass: any value computable in the
original graph is computed (with twice the fuel, since one helper node is
spliced into each rewritten `sub` chain) by the rewritten graph. -/
theorem evalNode_rewriteSubPass (nodes : List RNode)
    (hnodup : (nodes.map RNode.name).Nodup)
    (hfresh : ∀ x ∈ nodes, mulName x ∉ nodes.map RNode.name) :
    ∀ fuel name v, evalNode nodes fuel name = some v →
      evalNode (rewriteSubPass nodes) (2 * fuel) name = some v := by
  have hfresh2 : ∀ x ∈ nodes, ∀ y ∈ nodes, x.name ≠ mulName y := by
    intro x hx y hy hcon
    exact hfresh y hy (hcon ▸ List.mem_map.mpr ⟨x, hx, rfl⟩)
  intro fuel
  induction fuel with
  | zero => intro name v h; simp [evalNode] at h
  | succ fuel ih =>
    intro name v h
    rw [evalNode] at h
    cases hf : findR nodes name with
    | none => simp [hf] at h
    | some nd =>
      simp only [hf] at h
      obtain ⟨hname, hmemnd⟩ := findR_some hf
      have hmulne : ∀ x ∈ nodes, mulName x ≠ name := by
        intro x hx hcon
        exact hfresh x hx
          (hcon ▸ hname ▸ List.mem_map.mpr ⟨nd, hmemnd, rfl⟩)
      have hfmain : findR (rewriteSubPass nodes) name = some (mainSub nd) :=
        findR_rewriteSubPass nodes name hmulne nd hf
      have h2 : 2 * (fuel + 1) = 2 * fuel + 1 + 1 := by ring
      rw [h2, evalNode]
      simp only [hfmain]
      rcases mainSub_cases nd with
        ⟨c, a, hop, hinp, hms⟩ | ⟨c, a, hop, hinp, hms, hmn, hh⟩ |
        ⟨a, b, hop, hinp, hms, hmn, hh⟩ | hms
      · -- sub(x, c) → add(x, -c)
        simp only [hinp] at h
        cases hea : evalNode nodes fuel a with
        | none => simp [hea] at h
        | some va =>
          simp only [hea, hop] at h
          simp only [evalOp] at h
          have hea' : evalNode (rewriteSubPass nodes) (2 * fuel + 1) a = some va :=
            evalNode_mono _ _ _ _ (ih a va hea)
          simp only [hms, hea']
          simp only [evalOp, map_add_neg_const]
          exact h
      · -- c - x → mul(x, -1) then radd
        simp only [hinp] at h
        cases hea : evalNode nodes fuel a with
        | none => simp [hea] at h
        | some va =>
          simp only [hea, hop] at h
          simp only [evalOp] at h
          have hmulv : evalNode (rewriteSubPass nodes) (2 * fuel + 1)
              (mulName nd) = some (va.map (· * -1)) := by
            rw [evalNode]
            have hfm := findR_mul_rewriteSubPass nodes hnodup hfresh2 nd hmemnd hh
            simp only [hfm, hmn]
            simp only [ih a va hea]
            rfl
          simp only [hms, hmulv]
          simp only [evalOp, map_radd_mul_negone]
          exact h
      · -- sub(a, b) → mul(b, -1) then add(a, result)
        simp only [hinp] at h
        cases hea : evalNode nodes fuel a with
        | none => simp [hea] at h
        | some va =>
          cases heb : evalNode nodes fuel b with
          | none => simp [hea, heb] at h
          | some vb =>
            simp only [hea, heb, hop] at h
            simp only [evalOp] at h
            have hea' : evalNode (rewriteSubPass nodes) (2 * fuel + 1) a
                = some va := evalNode_mono _ _ _ _ (ih a va hea)
            have hmulv : evalNode (rewriteSubPass nodes) (2 * fuel + 1)
                (mulName nd) = some (vb.map (· * -1)) := by
              rw [evalNode]
              have hfm := findR_mul_rewriteSubPass nodes hnodup hfresh2 nd hmemnd hh
              simp only [hfm, hmn]
              simp only [ih b vb heb]
              rfl
            simp only [hms, hea', hmulv]
            simp only [evalOp, zipWith_add_mul_negone]
            exact h
      · -- every other node is untouched
        simp only [hms]
        cases hi : nd.inputs with
        | nil =>
          simp only [hi] at h
          exact h
        | cons i rest =>
          cases rest with
          | nil =>
            simp only [hi] at h
            cases hei : evalNode nodes fuel i with
            | none => simp [hei] at h
            | some vi =>
              simp only [hei] at h
              simp only [hi, evalNode_mono _ _ _ _ (ih i vi hei)]
              exact h
          | cons j rest2 =>
            cases rest2 with
            | nil =>
              simp only [hi] at h
              cases hei : evalNode nodes fuel i with
              | none => simp [hei] at h
              | some vi =>
                cases hej : evalNode nodes fuel j with
                | none => simp [hei, hej] at h
                | some vj =>
                  simp only [hei, hej] at h
                  simp only [hi, evalNode_mono _ _ _ _ (ih i vi hei),
                    evalNode_mono _ _ _ _ (ih j vj hej)]
                  exact h
            | cons k rest3 =>
              simp only [hi] at h
              exact h

end TinyNN

namespace TinyNN

/-- The concrete subtraction graph `a = [5.0]; b = [3.0]; s = a - b`. -/
def subGraphW : List RNode :=
  [⟨"a", ROp.leaf [5], []⟩, ⟨"b", ROp.leaf [3], []⟩, ⟨"s", ROp.subT, ["a", "b"]⟩]

/-- **C6.** Two-tensor subtraction rewrite: for every `sub` node with two
tensor operands `a` and `b`, the rewrite inserts an explicit `mul(b, -1)`
node between `b`'s producer and the `sub` node and turns the `sub` node into
`add(a, that_result)`; evaluation of every node is preserved (the rewritten
graph needs more fuel because of the spliced helper).  On the concrete inputs
`a = [5.0], b = [3.0]`, the original and the rewritten graph both evaluate
the node to `[2.0]`. -/
theorem claim_C6_sub_rewrite (nodes : List RNode)
    (hnodup : (nodes.map RNode.name).Nodup)
    (hfresh : ∀ x ∈ nodes, mulName x ∉ nodes.map RNode.name)
    (fuel : Nat) (name : String) (v : List ℚ)
    (h : evalNode nodes fuel name = some v) :
    evalNode (rewriteSubPass nodes) (2 * fuel) name = some v ∧
    rewriteSubPass subGraphW =
      [⟨"a", ROp.leaf [5], []⟩, ⟨"b", ROp.leaf [3], []⟩,
       ⟨"s" ++ "_fuse_mul", ROp.mulC (-1), ["b"]⟩,
       ⟨"s", ROp.addT, ["a", "s" ++ "_fuse_mul"]⟩] ∧
    evalNode subGraphW 2 "s" = some [2] ∧
    evalNode (rewriteSubPass subGraphW) 4 "s" = some [2] := by
  refine ⟨evalNode_rewriteSubPass nodes hnodup hfresh fuel name v h, rfl, ?_, ?_⟩
  · simp +decide [evalNode, evalOp, findR, subGraphW, List.find?]
    norm_num
  · simp +decide [evalNode, evalOp, findR, subGraphW, rewriteSubPass,
      rewriteSubNode, mulName, List.find?]
    norm_num

/-- **C6 — witness.** The preservation theorem applied to the concrete
subtraction graph: the rewritten graph computes `[2.0]` as well. -/
theorem claim_C6_witness :
    evalNode (rewriteSubPass subGraphW) (2 * 2) "s" = some [5 - 3] :=
  (claim_C6_sub_rewrite subGraphW (by decide) (by decide) 2 "s" [5 - 3]
    (by simp +decide [evalNode, evalOp, findR, subGraphW, List.find?])).1

end TinyNN

namespace TinyNN

/-- The graph as `rewrite_quantize_graph` sees it: the IR nodes plus the
`graph.quantized` flag. -/
structure RGraph where
  nodes : List RNode
  quantized : Bool
deriving DecidableEq, Repr

/-- The skeleton of `rewrite_quantize_graph`: return immediately when
`graph.quantized` is already set, otherwise run the rewrite passes (the
modelled algebraic `div` and `sub` passes stand for the full pass sequence;
the function has no other early return) and set `graph.quantized = True` at
the end. -/
def rewrite_quantize_graph (g : RGraph) : RGraph :=
  if g.quantized then g
  else { nodes := rewriteSubPass (rewriteDivPass g.nodes), quantized := true }

/-- **C10.** `rewrite_quantize_graph` sets `graph.quantized` to `True` after
its passes, returns immediately without modification when the flag is already
set, and is therefore idempotent: a second invocation is a no-op. -/
theorem claim_C10_idempotence_guard (g : RGraph) :
    (rewrite_quantize_graph g).quantized = true ∧
    (g.quantized = true → rewrite_quantize_graph g = g) ∧
    rewrite_quantize_graph (rewrite_quantize_graph g) = rewrite_quantize_graph g := by
  by_cases hq : g.quantized
  · simp [rewrite_quantize_graph, hq]
  · simp [rewrite_quantize_graph, hq]

/-- **C10 — witness.** A graph already marked quantized is returned as is. -/
theorem claim_C10_witness :
    rewrite_quantize_graph ⟨[], true⟩ = (⟨[], true⟩ : RGraph) :=
  (claim_C10_idempotence_guard ⟨[], true⟩).2.1 rfl

end TinyNN
